import Mathlib

/-!
Shallow embedding of the differential-regulation / enrichment pipeline of the
acore statistics library, together with theorems settling the specified
properties of its routines.  The Python package itself ships only notebook
callers in this snapshot, so each routine is modelled from the specification
(and from the method descriptions and call sites present in the notebooks),
as stated in the doc comment of every modelled definition.
-/

namespace Acore

/-! ## Group Comparator (run_anova) -/

/-- Modelled from the spec: the distinct group levels present after
missing-value filtering (spec 4.1): the distinct non-missing labels of the
grouping column, in order of first appearance.  The run_anova implementation
is absent from src; only notebook callers are present. -/
def groupLevels (labels : List (Option String)) : List String :=
  (labels.filterMap id).dedup

/-- All unordered pairs of distinct positions of a list, enumerated in input
order: each element is paired with every later element. -/
def pairsOf : List α → List (α × α)
  | [] => []
  | x :: rest => (rest.map fun y => (x, y)) ++ pairsOf rest

/-- One Comparison Result Record of the Group Comparator, keyed by feature
identifier and the two compared group labels (spec 3).  The statistics
columns (means, test statistic, p-value) are carried by the separately
modelled corrector and enrichment inputs; the claims about run_anova concern
the enumeration of records. -/
structure AnovaRec where
  identifier : String
  group1 : String
  group2 : String
  deriving Repr, DecidableEq

/-- Modelled from the spec: the record enumeration of run_anova (spec 4.1):
one Comparison Result Record per (feature, unordered group pair), the group
pairs being the full combinatorial set over the levels present after
missing-value filtering.  run_anova is absent from src. -/
def anovaRecords (features : List String) (labels : List (Option String)) :
    List AnovaRec :=
  features.flatMap fun f =>
    (pairsOf (groupLevels labels)).map fun gp => ⟨f, gp.1, gp.2⟩

/-- Modelled from the spec: the input table of run_anova, a wide measurement
table (feature columns) joined with metadata columns holding possibly
missing per-sample values (spec 3). -/
structure AnovaInput where
  features : List String
  metaCols : List (String × List (Option String))

/-- Modelled from the spec: run_anova (spec 4.1 and 7), absent from src.
Fails with a descriptive error when the grouping column is absent from the
table or when fewer than 2 distinct group levels remain after missing-value
removal; otherwise returns one record per (feature, group pair). -/
def run_anova (t : AnovaInput) (group : String) :
    Except String (List AnovaRec) :=
  match t.metaCols.lookup group with
  | none => .error ("group column " ++ group ++ " not found in input table")
  | some labels =>
    if (groupLevels labels).length < 2 then
      .error ("fewer than 2 distinct group levels in column " ++ group ++
        " after missing-value removal")
    else
      .ok (anovaRecords t.features labels)

theorem mem_pairsOf {l : List α} {gp : α × α} (h : gp ∈ pairsOf l) :
    gp.1 ∈ l ∧ gp.2 ∈ l := by
  induction l with
  | nil => simp [pairsOf] at h
  | cons x rest ih =>
    simp only [pairsOf, List.mem_append, List.mem_map] at h
    rcases h with ⟨y, hy, rfl⟩ | h
    · exact ⟨List.mem_cons_self x rest, List.mem_cons_of_mem x hy⟩
    · exact ⟨List.mem_cons_of_mem x (ih h).1, List.mem_cons_of_mem x (ih h).2⟩

theorem pairsOf_nodup {l : List α} (h : l.Nodup) : (pairsOf l).Nodup := by
  induction l with
  | nil => simp [pairsOf]
  | cons x rest ih =>
    rcases List.nodup_cons.mp h with ⟨hx, hrest⟩
    simp only [pairsOf]
    refine List.Nodup.append ?_ (ih hrest) ?_
    · exact hrest.map fun a b hab => (Prod.mk.injEq x a x b ▸ hab).2
    · intro gp hgp1 hgp2
      rcases List.mem_map.mp hgp1 with ⟨y, _, rfl⟩
      exact hx ((mem_pairsOf hgp2).1)

theorem length_anovaRecords (features : List String)
    (labels : List (Option String)) :
    (anovaRecords features labels).length =
      features.length * (pairsOf (groupLevels labels)).length := by
  induction features with
  | nil => simp [anovaRecords]
  | cons f rest ih =>
    simp only [anovaRecords, List.flatMap_cons, List.length_append,
      List.length_map, List.length_cons] at ih ⊢
    rw [ih]
    ring

theorem countP_eq_one_of_nodup_mem [BEq α] [LawfulBEq α] {l : List α}
    (h : l.Nodup) {a : α} (ha : a ∈ l) :
    l.countP (fun x => x == a) = 1 := by
  induction l with
  | nil => simp at ha
  | cons b rest ih =>
    rcases List.nodup_cons.mp h with ⟨hb, hrest⟩
    by_cases hba : b = a
    · subst hba
      have hz : rest.countP (fun y => y == b) = 0 := by
        rw [List.countP_eq_zero]
        intro c hc
        simp only [beq_iff_eq]
        rintro rfl
        exact hb hc
      simp [List.countP_cons, hz]
    · have ha2 : a ∈ rest := by
        rcases List.mem_cons.mp ha with h1 | h1
        · exact absurd h1.symm hba
        · exact h1
      simp [List.countP_cons, hba, ih hrest ha2]

theorem countP_anovaRecords (features : List String)
    (labels : List (Option String)) (hnd : features.Nodup)
    {f : String} (hf : f ∈ features)
    {gp : String × String} (hgp : gp ∈ pairsOf (groupLevels labels)) :
    (anovaRecords features labels).countP
      (fun r => r.identifier == f && r.group1 == gp.1 && r.group2 == gp.2)
      = 1 := by
  induction features with
  | nil => simp at hf
  | cons g rest ih =>
    rcases List.nodup_cons.mp hnd with ⟨hg, hrest⟩
    simp only [anovaRecords, List.flatMap_cons, List.countP_append] at ih ⊢
    rcases List.mem_cons.mp hf with rfl | hf2
    · have hz :
          (rest.flatMap fun f2 =>
            (pairsOf (groupLevels labels)).map fun gp2 =>
              (⟨f2, gp2.1, gp2.2⟩ : AnovaRec)).countP
            (fun r => r.identifier == f && r.group1 == gp.1 &&
              r.group2 == gp.2) = 0 := by
        rw [List.countP_eq_zero]
        intro r hr
        rcases List.mem_flatMap.mp hr with ⟨f2, hf2, hr2⟩
        rcases List.mem_map.mp hr2 with ⟨gp2, _, rfl⟩
        simp only [Bool.and_eq_true, beq_iff_eq]
        rintro ⟨⟨rfl, -⟩, -⟩
        exact hg hf2
      rw [hz]
      have hone :
          ((pairsOf (groupLevels labels)).map fun gp2 =>
            (⟨f, gp2.1, gp2.2⟩ : AnovaRec)).countP
            (fun r => r.identifier == f && r.group1 == gp.1 &&
              r.group2 == gp.2) = 1 := by
        rw [List.countP_map]
        have hpc : ∀ gp2 ∈ pairsOf (groupLevels labels),
            ((fun r : AnovaRec => r.identifier == f && r.group1 == gp.1 &&
              r.group2 == gp.2) ∘ fun gp2 =>
                (⟨f, gp2.1, gp2.2⟩ : AnovaRec)) gp2 = (gp2 == gp) := by
          intro gp2 _
          simp only [Function.comp_apply, beq_self_eq_true, Bool.true_and]
          cases gp; cases gp2
          rfl
        rw [List.countP_congr (fun x hx => by rw [hpc x hx])]
        exact countP_eq_one_of_nodup_mem
          (pairsOf_nodup (List.nodup_dedup _)) hgp
      omega
    · have hz :
          ((pairsOf (groupLevels labels)).map fun gp2 =>
            (⟨g, gp2.1, gp2.2⟩ : AnovaRec)).countP
            (fun r => r.identifier == f && r.group1 == gp.1 &&
              r.group2 == gp.2) = 0 := by
        rw [List.countP_eq_zero]
        intro r hr
        rcases List.mem_map.mp hr with ⟨gp2, _, rfl⟩
        simp only [Bool.and_eq_true, beq_iff_eq]
        rintro ⟨⟨rfl, -⟩, -⟩
        exact hg hf2
      rw [hz, ih hrest hf2]

/-- C1: for a measurement table with a categorical grouping column, the
table returned by run_anova contains exactly one Comparison Result Record
per (feature, group pair), the group pairs being the full combinatorial set
of unordered pairs of distinct group levels present after missing-value
filtering; hence the row count equals (number of features) times (number of
enumerated group pairs). -/
theorem run_anova_row_count_and_uniqueness
    (t : AnovaInput) (group : String) (labels : List (Option String))
    (recs : List AnovaRec)
    (hcol : t.metaCols.lookup group = some labels)
    (hok : run_anova t group = .ok recs)
    (hnd : t.features.Nodup) :
    recs.length = t.features.length * (pairsOf (groupLevels labels)).length ∧
    ∀ f ∈ t.features, ∀ gp ∈ pairsOf (groupLevels labels),
      recs.countP (fun r => r.identifier == f && r.group1 == gp.1 &&
        r.group2 == gp.2) = 1 := by
  have hrecs : recs = anovaRecords t.features labels := by
    unfold run_anova at hok
    rw [hcol] at hok
    dsimp only at hok
    by_cases h2 : (groupLevels labels).length < 2
    · rw [if_pos h2] at hok
      exact absurd hok (by simp)
    · rw [if_neg h2] at hok
      exact ((Except.ok.injEq _ _).mp hok).symm
  subst hrecs
  exact ⟨length_anovaRecords _ _,
    fun f hf gp hgp => countP_anovaRecords _ _ hnd hf hgp⟩

/-- Witness for C1: a concrete table with two features and a grouping column
whose non-missing levels are A, B, C gives 2 times 3 records, one per
(feature, pair). -/
theorem run_anova_row_count_and_uniqueness_witness :
    (anovaRecords ["p1", "p2"]
        [some "A", some "B", none, some "C", some "A"]).length =
      (["p1", "p2"] : List String).length *
        (pairsOf (groupLevels
          [some "A", some "B", none, some "C", some "A"])).length ∧
    ∀ f ∈ (["p1", "p2"] : List String),
      ∀ gp ∈ pairsOf (groupLevels
          [some "A", some "B", none, some "C", some "A"]),
        (anovaRecords ["p1", "p2"]
            [some "A", some "B", none, some "C", some "A"]).countP
          (fun r => r.identifier == f && r.group1 == gp.1 &&
            r.group2 == gp.2) = 1 :=
  run_anova_row_count_and_uniqueness
    ⟨["p1", "p2"], [("grp", [some "A", some "B", none, some "C", some "A"])]⟩
    "grp" _ _ rfl rfl (by decide)

/-- C7: run_anova fails with a descriptive error when the grouping column is
absent from the input table, and whenever fewer than 2 distinct group
levels (zero or one) remain after missing-value filtering it raises an
input-shape error rather than returning an empty or NaN-filled table. -/
theorem run_anova_failure_conditions (t : AnovaInput) (group : String) :
    (t.metaCols.lookup group = none →
      ∃ msg, run_anova t group = .error msg) ∧
    (∀ labels, t.metaCols.lookup group = some labels →
      (groupLevels labels).length < 2 →
      ∃ msg, run_anova t group = .error msg) := by
  constructor
  · intro h
    exact ⟨_, by unfold run_anova; rw [h]⟩
  · intro labels h h1
    unfold run_anova
    rw [h]
    dsimp only
    rw [if_pos h1]
    exact ⟨_, rfl⟩

/-- Witness for C7: a table with no grouping column errors, a table whose
grouping column has the single non-missing level A errors, and a table
whose grouping column is entirely missing (zero levels) errors. -/
theorem run_anova_failure_conditions_witness :
    (∃ msg, run_anova ⟨["p1"], []⟩ "grp" = .error msg) ∧
    (∃ msg, run_anova ⟨["p1"], [("grp", [some "A", none, some "A"])]⟩
      "grp" = .error msg) ∧
    (∃ msg, run_anova ⟨["p1"], [("grp", [none, none])]⟩
      "grp" = .error msg) :=
  ⟨(run_anova_failure_conditions ⟨["p1"], []⟩ "grp").1 rfl,
   (run_anova_failure_conditions
      ⟨["p1"], [("grp", [some "A", none, some "A"])]⟩ "grp").2
     [some "A", none, some "A"] rfl (by decide),
   (run_anova_failure_conditions
      ⟨["p1"], [("grp", [none, none])]⟩ "grp").2
     [none, none] rfl (by decide)⟩

/-! ## Multiple-Testing Corrector -/

/-- Benjamini-Hochberg step-up pass over a descending-sorted p-value list:
walking from the largest p-value down, each adjusted value is the minimum of
the previous adjusted value and m times p over the 1-based ascending rank of
p, the rank being the number of remaining entries. -/
def bhPass (m : ℕ) : List ℚ → ℚ → List (ℚ × ℚ)
  | [], _ => []
  | p :: rest, acc =>
    let a := min acc ((m : ℚ) * p / ((rest.length : ℚ) + 1))
    (p, a) :: bhPass m rest a

/-- Modelled from the spec: the Benjamini-Hochberg correction (spec 4.2,
the default method of the Multiple-Testing Corrector, absent from src)
over the given p-values: sort descending and take the running minimum of
m times p over rank, capped at 1. -/
def bhSorted (ps : List ℚ) : List (ℚ × ℚ) :=
  bhPass ps.length (ps.mergeSort fun a b => decide (b ≤ a)) 1

/-- Adjusted value associated to a raw p-value in a corrected list. -/
def padjLookup (pairs : List (ℚ × ℚ)) (p : ℚ) : Option ℚ :=
  (pairs.find? fun q => decide (q.1 = p)).map fun q => q.2

/-- One Corrected Result Record (spec 3): raw p-value, adjusted p-value and
rejection flag, each missing (NaN) when the input p-value was missing. -/
structure CorrRec where
  pvalue : Option ℚ
  padj : Option ℚ
  rejected : Option Bool
  deriving Repr, DecidableEq

/-- The corrected record of one input p-value given the adjusted values of
the non-missing family. -/
def corrRecOf (pairs : List (ℚ × ℚ)) (alpha : ℚ) : Option ℚ → CorrRec
  | none => ⟨none, none, none⟩
  | some p =>
    match padjLookup pairs p with
    | none => ⟨some p, none, none⟩
    | some a => ⟨some p, some a, some (decide (a ≤ alpha))⟩

/-- Modelled from the spec: the Multiple-Testing Corrector (spec 4.2,
absent from src).  Missing (NaN) p-values are excluded from the correction
family; every record keeps its input p-value, receives the
Benjamini-Hochberg adjusted value of its p-value, and is rejected exactly
when the adjusted value is at most alpha; missing inputs yield records with
missing adjusted value and missing rejection flag. -/
def multitestCorrect (l : List (Option ℚ)) (alpha : ℚ) : List CorrRec :=
  l.map (corrRecOf (bhSorted (l.filterMap id)) alpha)

theorem bhPass_map_fst (m : ℕ) (l : List ℚ) (acc : ℚ) :
    (bhPass m l acc).map Prod.fst = l := by
  induction l generalizing acc with
  | nil => simp [bhPass]
  | cons p rest ih => simp [bhPass, ih]

theorem bhPass_le {m : ℕ} {l : List ℚ} {acc : ℚ}
    (hbound : ∀ p ∈ l, 0 ≤ p ∧ p ≤ acc)
    (hsorted : l.Pairwise fun a b => b ≤ a)
    (hlen : l.length ≤ m) :
    ∀ pa ∈ bhPass m l acc, pa.1 ≤ pa.2 := by
  induction l generalizing acc with
  | nil => simp [bhPass]
  | cons p rest ih =>
    rcases List.pairwise_cons.mp hsorted with ⟨hhead, htail⟩
    rcases hbound p (List.mem_cons_self p rest) with ⟨hp0, hpacc⟩
    have hpos : (0 : ℚ) < (rest.length : ℚ) + 1 := by positivity
    have hrank : ((rest.length : ℚ) + 1) ≤ (m : ℚ) := by
      have := hlen
      simp only [List.length_cons] at this
      exact_mod_cast this
    have hkey : p ≤ (m : ℚ) * p / ((rest.length : ℚ) + 1) := by
      rw [le_div_iff₀ hpos]
      calc p * ((rest.length : ℚ) + 1) ≤ p * (m : ℚ) :=
            mul_le_mul_of_nonneg_left hrank hp0
        _ = (m : ℚ) * p := mul_comm _ _
    intro pa hpa
    simp only [bhPass, List.mem_cons] at hpa
    rcases hpa with rfl | hpa
    · exact le_min hpacc hkey
    · refine ih ?_ htail (by simpa using Nat.le_of_succ_le hlen) pa hpa
      intro q hq
      refine ⟨(hbound q (List.mem_cons_of_mem p hq)).1,
        le_min (hbound q (List.mem_cons_of_mem p hq)).2 ?_⟩
      exact le_trans (hhead q hq) hkey

theorem padjLookup_mem {pairs : List (ℚ × ℚ)} {p a : ℚ}
    (h : padjLookup pairs p = some a) : (p, a) ∈ pairs := by
  unfold padjLookup at h
  cases hfind : pairs.find? fun q => decide (q.1 = p) with
  | none => rw [hfind] at h; simp at h
  | some q =>
    rw [hfind] at h
    simp at h
    have hq1 : q.1 = p := by
      have := List.find?_some hfind
      simpa using this
    have hq2 : q.2 = a := by simpa using h
    have hmem := List.mem_of_find?_eq_some hfind
    have : q = (p, a) := by
      cases q
      simp_all
    exact this ▸ hmem

theorem padjLookup_isSome_of_mem_fst {pairs : List (ℚ × ℚ)} {p : ℚ}
    (h : p ∈ pairs.map Prod.fst) : (padjLookup pairs p).isSome := by
  rcases List.mem_map.mp h with ⟨q, hq, hq1⟩
  unfold padjLookup
  have : (pairs.find? fun q => decide (q.1 = p)).isSome :=
    List.find?_isSome.mpr ⟨q, hq, by simp [hq1]⟩
  cases hfind : pairs.find? fun q => decide (q.1 = p) with
  | none => rw [hfind] at this; simp at this
  | some q2 => simp

theorem mem_bhSorted_le {ps : List ℚ}
    (hbound : ∀ p ∈ ps, 0 ≤ p ∧ p ≤ 1) {p a : ℚ}
    (h : (p, a) ∈ bhSorted ps) : p ≤ a := by
  have hperm := List.mergeSort_perm ps fun a b => decide (b ≤ a)
  have hsorted : (ps.mergeSort fun a b => decide (b ≤ a)).Pairwise
      fun a b => b ≤ a := by
    have := @List.sorted_mergeSort ℚ (fun a b : ℚ => decide (b ≤ a))
      (fun a b c hab hbc => by
        simp only [decide_eq_true_eq] at hab hbc ⊢
        exact le_trans hbc hab)
      (fun a b => by
        simp only [Bool.or_eq_true, decide_eq_true_eq]
        exact le_total b a)
      ps
    exact this.imp fun hab => by simpa using hab
  exact bhPass_le
    (fun q hq => ⟨(hbound q (hperm.mem_iff.mp hq)).1,
      (hbound q (hperm.mem_iff.mp hq)).2⟩)
    hsorted (le_of_eq hperm.length_eq) (p, a) h

/-- C2: for every record of the corrected result table, the adjusted
p-value is at least the raw p-value; a true rejected flag implies the
adjusted p-value is at most the configured alpha; a false or missing
rejected flag implies the adjusted p-value exceeds alpha or is missing
(NaN). -/
theorem multitest_monotone_and_threshold (l : List (Option ℚ)) (alpha : ℚ)
    (hbound : ∀ p : ℚ, some p ∈ l → 0 ≤ p ∧ p ≤ 1) :
    ∀ r ∈ multitestCorrect l alpha,
      (∀ p a, r.pvalue = some p → r.padj = some a → p ≤ a) ∧
      (r.rejected = some true → ∃ a, r.padj = some a ∧ a ≤ alpha) ∧
      ((r.rejected = some false ∨ r.rejected = none) →
        r.padj = none ∨ ∃ a, r.padj = some a ∧ alpha < a) := by
  intro r hr
  rcases List.mem_map.mp hr with ⟨o, ho, rfl⟩
  cases o with
  | none =>
    refine ⟨?_, ?_, ?_⟩ <;> simp [corrRecOf]
  | some p =>
    have hbound2 : ∀ q ∈ l.filterMap id, 0 ≤ q ∧ q ≤ 1 := by
      intro q hq
      rcases List.mem_filterMap.mp hq with ⟨o2, ho2, he⟩
      cases o2 with
      | none => simp at he
      | some q2 =>
        simp only [id_eq, Option.some.injEq] at he
        exact he ▸ hbound q2 ho2
    cases hlook : padjLookup (bhSorted (l.filterMap id)) p with
    | none =>
      refine ⟨?_, ?_, ?_⟩ <;> simp [corrRecOf, hlook]
    | some a =>
      have hpa : (p, a) ∈ bhSorted (l.filterMap id) := padjLookup_mem hlook
      have hle : p ≤ a := mem_bhSorted_le hbound2 hpa
      refine ⟨?_, ?_, ?_⟩
      · intro p2 a2 h1 h2
        simp only [corrRecOf, hlook, Option.some.injEq] at h1 h2
        exact h2 ▸ h1 ▸ hle
      · intro hrej
        simp only [corrRecOf, hlook, Option.some.injEq] at hrej
        exact ⟨a, by simp [corrRecOf, hlook], of_decide_eq_true hrej⟩
      · intro hrej
        rcases hrej with hrej | hrej
        · simp only [corrRecOf, hlook, Option.some.injEq] at hrej
          right
          exact ⟨a, by simp [corrRecOf, hlook],
            lt_of_not_le (of_decide_eq_false hrej)⟩
        · simp [corrRecOf, hlook] at hrej

/-- Witness for C2: the corrected record of the p-value 0 in the table with
p-values 1, NaN and 0 at alpha 1 satisfies the monotonicity and threshold
properties. -/
theorem multitest_monotone_and_threshold_witness :
    (∀ p a,
      (⟨some (0 : ℚ), some 0, some true⟩ : CorrRec).pvalue = some p →
      (⟨some (0 : ℚ), some 0, some true⟩ : CorrRec).padj = some a →
      p ≤ a) ∧
    ((⟨some (0 : ℚ), some 0, some true⟩ : CorrRec).rejected = some true →
      ∃ a, (⟨some (0 : ℚ), some 0, some true⟩ : CorrRec).padj = some a ∧
        a ≤ 1) ∧
    (((⟨some (0 : ℚ), some 0, some true⟩ : CorrRec).rejected = some false ∨
        (⟨some (0 : ℚ), some 0, some true⟩ : CorrRec).rejected = none) →
      (⟨some (0 : ℚ), some 0, some true⟩ : CorrRec).padj = none ∨
        ∃ a, (⟨some (0 : ℚ), some 0, some true⟩ : CorrRec).padj = some a ∧
          1 < a) :=
  multitest_monotone_and_threshold [some (1 : ℚ), none, some 0] 1
    (by
      intro p hp
      simp only [List.mem_cons, List.not_mem_nil, or_false,
        Option.some.injEq, reduceCtorEq, false_or] at hp
      rcases hp with rfl | rfl <;> norm_num)
    ⟨some 0, some 0, some true⟩
    (by
      have hfm : (([some (1 : ℚ), none, some 0] :
          List (Option ℚ)).filterMap id) = [1, 0] := rfl
      unfold multitestCorrect bhSorted
      rw [hfm, List.mergeSort_of_sorted (by decide)]
      simp [bhPass, corrRecOf, padjLookup, List.find?]
      norm_num)

theorem length_filterMap_id (l : List (Option α)) :
    (l.filterMap id).length = l.countP (fun o => o.isSome) := by
  induction l with
  | nil => simp
  | cons o rest ih =>
    cases o <;> simp [List.countP_cons, ih]

theorem filter_isSome_eq_map_some (l : List (Option α)) :
    l.filter (fun o => o.isSome) = (l.filterMap id).map some := by
  induction l with
  | nil => simp
  | cons o rest ih =>
    cases o <;> simp [List.filter_cons, ih]

theorem corrRecOf_padj_isSome (pairs : List (ℚ × ℚ)) (alpha : ℚ)
    {p : ℚ} (h : p ∈ pairs.map Prod.fst) :
    (corrRecOf pairs alpha (some p)).padj.isSome := by
  have := padjLookup_isSome_of_mem_fst h
  cases hlook : padjLookup pairs p with
  | none => rw [hlook] at this; simp at this
  | some a => simp [corrRecOf, hlook]

theorem corrRecOf_pvalue_isSome (pairs : List (ℚ × ℚ)) (alpha : ℚ)
    (o : Option ℚ) :
    (corrRecOf pairs alpha o).pvalue.isSome = o.isSome := by
  cases o with
  | none => simp [corrRecOf]
  | some p => cases hlook : padjLookup pairs p <;> simp [corrRecOf, hlook]

/-- C6: the corrector excludes NaN p-values from the correction and
propagates NaN into the adjusted p-value and rejected fields; the number of
corrected records equals the number of non-NaN input p-values; and removing
the NaN inputs does not change the records computed for the other
features. -/
theorem multitest_nan_handling (l : List (Option ℚ)) (alpha : ℚ) :
    (∀ i : ℕ, l[i]? = some none →
      (multitestCorrect l alpha)[i]? = some ⟨none, none, none⟩) ∧
    (multitestCorrect l alpha).countP (fun r => r.padj.isSome) =
      (l.filterMap id).length ∧
    (multitestCorrect l alpha).filter (fun r => r.pvalue.isSome) =
      multitestCorrect ((l.filterMap id).map some) alpha := by
  refine ⟨?_, ?_, ?_⟩
  · intro i hi
    unfold multitestCorrect
    rw [List.getElem?_map, hi]
    rfl
  · unfold multitestCorrect
    rw [List.countP_map, length_filterMap_id]
    refine List.countP_congr ?_
    intro o ho
    cases o with
    | none => simp [corrRecOf]
    | some p =>
      have hmem : p ∈ (bhSorted (l.filterMap id)).map Prod.fst := by
        rw [bhSorted, bhPass_map_fst]
        exact (List.mergeSort_perm _ _).mem_iff.mpr
          (List.mem_filterMap.mpr ⟨some p, ho, rfl⟩)
      simp [corrRecOf_padj_isSome _ alpha hmem]
  · unfold multitestCorrect
    rw [List.filter_map]
    have hps : ((l.filterMap id).map some).filterMap id = l.filterMap id := by
      rw [List.filterMap_map]
      simp
    rw [hps]
    simp only [Function.comp_def]
    rw [List.filter_congr fun o _ =>
      corrRecOf_pvalue_isSome (bhSorted (l.filterMap id)) alpha o]
    rw [filter_isSome_eq_map_some]

/-- Witness for C6 at the concrete input [some 1/2, NaN, some 1/4] with
alpha 1/20. -/
theorem multitest_nan_handling_witness :
    (multitestCorrect [some (1/2 : ℚ), none, some (1/4)] (1/20))[1]? =
        some ⟨none, none, none⟩ ∧
    (multitestCorrect [some (1/2 : ℚ), none, some (1/4)] (1/20)).countP
        (fun r => r.padj.isSome) =
      (([some (1/2 : ℚ), none, some (1/4)] :
        List (Option ℚ)).filterMap id).length ∧
    (multitestCorrect [some (1/2 : ℚ), none, some (1/4)] (1/20)).filter
        (fun r => r.pvalue.isSome) =
      multitestCorrect ((([some (1/2 : ℚ), none, some (1/4)] :
        List (Option ℚ)).filterMap id).map some) (1/20) :=
  ⟨(multitest_nan_handling [some (1/2 : ℚ), none, some (1/4)] (1/20)).1
      1 rfl,
   (multitest_nan_handling [some (1/2 : ℚ), none, some (1/4)] (1/20)).2.1,
   (multitest_nan_handling [some (1/2 : ℚ), none, some (1/4)] (1/20)).2.2⟩

/-! ## Enrichment Engine -/

/-- One row of the corrected regulation table consumed by the Enrichment
Engine: feature identifier, rejection flag and log2 fold-change (spec 3). -/
structure RegRec where
  identifier : String
  rejected : Bool
  log2FC : ℚ
  deriving Repr, DecidableEq

/-- Modelled from the spec: the up set of run_up_down_regulation_enrichment
(spec 4.3, absent from src): regulated (rejected) records whose log2FC is
strictly greater than the positive fold-change cutoff. -/
def upRegulated (l : List RegRec) (cutoff : ℚ) : List RegRec :=
  l.filter fun r => r.rejected && decide (cutoff < r.log2FC)

/-- Modelled from the spec: the down set of
run_up_down_regulation_enrichment (spec 4.3, absent from src): regulated
records whose log2FC is strictly less than the negated cutoff. -/
def downRegulated (l : List RegRec) (cutoff : ℚ) : List RegRec :=
  l.filter fun r => r.rejected && decide (r.log2FC < -cutoff)

/-- C4: the Enrichment Engine places a regulated feature in the up set
exactly when log2FC strictly exceeds the positive cutoff and in the down
set exactly when log2FC is strictly below the negated cutoff; a record
whose log2FC equals either boundary exactly is excluded from both sets. -/
theorem up_down_partition_strict (l : List RegRec) (cutoff : ℚ)
    (r : RegRec) (hc : 0 ≤ cutoff) :
    (r ∈ upRegulated l cutoff ↔
      r ∈ l ∧ r.rejected = true ∧ cutoff < r.log2FC) ∧
    (r ∈ downRegulated l cutoff ↔
      r ∈ l ∧ r.rejected = true ∧ r.log2FC < -cutoff) ∧
    ((r.log2FC = cutoff ∨ r.log2FC = -cutoff) →
      r ∉ upRegulated l cutoff ∧ r ∉ downRegulated l cutoff) := by
  refine ⟨?_, ?_, ?_⟩
  · simp [upRegulated, List.mem_filter, and_assoc]
  · simp [downRegulated, List.mem_filter, and_assoc]
  · rintro (he | he) <;> constructor <;> intro hmem <;>
      simp only [upRegulated, downRegulated, List.mem_filter,
        Bool.and_eq_true, decide_eq_true_eq] at hmem <;>
      rcases hmem with ⟨-, -, hlt⟩ <;> rw [he] at hlt <;> linarith

/-- Witness for C4 at a concrete regulation table with cutoff 1 and a
boundary record whose log2FC is exactly 1. -/
theorem up_down_partition_strict_witness :
    ((⟨"f2", true, 1⟩ : RegRec) ∈ upRegulated
        [⟨"f1", true, 2⟩, ⟨"f2", true, 1⟩, ⟨"f3", true, -2⟩,
          ⟨"f4", false, 3⟩] 1 ↔
      (⟨"f2", true, 1⟩ : RegRec) ∈
          ([⟨"f1", true, 2⟩, ⟨"f2", true, 1⟩, ⟨"f3", true, -2⟩,
            ⟨"f4", false, 3⟩] : List RegRec) ∧
        (⟨"f2", true, 1⟩ : RegRec).rejected = true ∧
        (1 : ℚ) < (⟨"f2", true, 1⟩ : RegRec).log2FC) ∧
    ((⟨"f2", true, 1⟩ : RegRec) ∈ downRegulated
        [⟨"f1", true, 2⟩, ⟨"f2", true, 1⟩, ⟨"f3", true, -2⟩,
          ⟨"f4", false, 3⟩] 1 ↔
      (⟨"f2", true, 1⟩ : RegRec) ∈
          ([⟨"f1", true, 2⟩, ⟨"f2", true, 1⟩, ⟨"f3", true, -2⟩,
            ⟨"f4", false, 3⟩] : List RegRec) ∧
        (⟨"f2", true, 1⟩ : RegRec).rejected = true ∧
        (⟨"f2", true, 1⟩ : RegRec).log2FC < -(1 : ℚ)) ∧
    (((⟨"f2", true, 1⟩ : RegRec).log2FC = (1 : ℚ) ∨
        (⟨"f2", true, 1⟩ : RegRec).log2FC = -(1 : ℚ)) →
      (⟨"f2", true, 1⟩ : RegRec) ∉ upRegulated
          [⟨"f1", true, 2⟩, ⟨"f2", true, 1⟩, ⟨"f3", true, -2⟩,
            ⟨"f4", false, 3⟩] 1 ∧
        (⟨"f2", true, 1⟩ : RegRec) ∉ downRegulated
          [⟨"f1", true, 2⟩, ⟨"f2", true, 1⟩, ⟨"f3", true, -2⟩,
            ⟨"f4", false, 3⟩] 1) :=
  up_down_partition_strict
    [⟨"f1", true, 2⟩, ⟨"f2", true, 1⟩, ⟨"f3", true, -2⟩, ⟨"f4", false, 3⟩]
    1 ⟨"f2", true, 1⟩ (by norm_num)

/-- The distinct annotation categories of a long-format membership table of
(feature, annotation category) rows (spec 3). -/
def annotationTerms (ann : List (String × String)) : List String :=
  (ann.map fun fa => fa.2).dedup

/-- Modelled from the spec: the distinct features of one annotation category
that are present in the background universe (spec 4.3). -/
def detectedInSet (ann : List (String × String)) (background : List String)
    (a : String) : List String :=
  (((ann.filter fun fa => decide (fa.2 = a)).map fun fa => fa.1).dedup).filter
    fun f => decide (f ∈ background)

/-- Numerator of the hypergeometric upper tail: the number of size-n draws
from M objects, K of them marked, containing at least k marked objects. -/
def hypergeomTailNum (M K n k : ℕ) : ℕ :=
  (((List.range (n + 1)).filter fun j => decide (k ≤ j)).map
    fun j => K.choose j * (M - K).choose (n - j)).sum

/-- One-sided over-representation p-value P(X >= k) of the hypergeometric
draw (the Fisher exact test tail of spec 4.3). -/
def hypergeomP (M K n k : ℕ) : ℚ :=
  (hypergeomTailNum M K n k : ℚ) / (M.choose n : ℚ)

/-- One Enrichment Result Record (spec 3): annotation category, direction,
counts and the over-representation p-value. -/
structure EnrichRec where
  term : String
  direction : String
  hitsRegulated : ℕ
  detectedCount : ℕ
  regulatedCount : ℕ
  backgroundCount : ℕ
  pvalue : ℚ
  deriving Repr, DecidableEq

/-- Count of detected annotation features lying in the regulated set. -/
def overlapCount (det : List String) (reg : List String) : ℕ :=
  (det.filter fun f => decide (f ∈ reg)).length

/-- Modelled from the spec: one direction of the Enrichment Engine
(spec 4.3, absent from src): each annotation category with at least
minDetected features present in the background universe is tested with the
one-sided hypergeometric over-representation test of its overlap with the
regulated identifier set; categories below the minimum are not emitted at
all. -/
def enrichDir (ann : List (String × String)) (background : List String)
    (regulated : List String) (minDetected : ℕ) (dir : String) :
    List EnrichRec :=
  ((annotationTerms ann).filter fun a =>
      decide (minDetected ≤ (detectedInSet ann background a).length)).map
    fun a =>
      ⟨a, dir, overlapCount (detectedInSet ann background a) regulated,
        (detectedInSet ann background a).length, regulated.length,
        background.dedup.length,
        hypergeomP background.dedup.length
          (detectedInSet ann background a).length regulated.length
          (overlapCount (detectedInSet ann background a) regulated)⟩

/-- Modelled from the spec: run_up_down_regulation_enrichment (spec 4.3,
absent from src): the up and down regulated identifier sets are extracted
from the corrected regulation table by the strict fold-change cutoffs and
each is tested per annotation category, the results being concatenated with
their direction tags. -/
def run_up_down_regulation_enrichment (regData : List RegRec)
    (ann : List (String × String)) (background : List String)
    (minDetected : ℕ) (lfcCutoff : ℚ) : List EnrichRec :=
  enrichDir ann background
      ((upRegulated regData lfcCutoff).map fun r => r.identifier)
      minDetected "up" ++
    enrichDir ann background
      ((downRegulated regData lfcCutoff).map fun r => r.identifier)
      minDetected "down"

theorem list_range_map_sum {M : Type} [AddCommMonoid M] (f : ℕ → M)
    (n : ℕ) : ((List.range n).map f).sum = ∑ j ∈ Finset.range n, f j := by
  induction n with
  | zero => simp
  | succ k ih =>
    rw [List.range_succ, List.map_append, List.sum_append,
      Finset.sum_range_succ, ih]
    simp

theorem hypergeomTailNum_zero (M K n : ℕ) (hKM : K ≤ M) :
    hypergeomTailNum M K n 0 = M.choose n := by
  unfold hypergeomTailNum
  rw [List.filter_eq_self.mpr (fun j hj => by simp)]
  rw [list_range_map_sum]
  have hv := Nat.add_choose_eq K (M - K) n
  rw [Nat.add_sub_cancel' hKM] at hv
  rw [hv, Finset.Nat.sum_antidiagonal_eq_sum_range_succ_mk]

theorem hypergeomP_zero (M K n : ℕ) (hKM : K ≤ M) (hnM : n ≤ M) :
    hypergeomP M K n 0 = 1 := by
  unfold hypergeomP
  rw [hypergeomTailNum_zero M K n hKM]
  exact div_self (by exact_mod_cast (Nat.choose_pos hnM).ne')

theorem nodup_length_le_dedup {l1 l2 : List String} (h1 : l1.Nodup)
    (h2 : ∀ x ∈ l1, x ∈ l2) : l1.length ≤ l2.dedup.length := by
  rw [← List.toFinset_card_of_nodup h1, ← List.card_toFinset]
  exact Finset.card_le_card fun x hx =>
    List.mem_toFinset.mpr (h2 x (List.mem_toFinset.mp hx))

theorem detectedInSet_nodup (ann : List (String × String))
    (background : List String) (a : String) :
    (detectedInSet ann background a).Nodup :=
  (List.nodup_dedup _).filter _

theorem detectedInSet_subset (ann : List (String × String))
    (background : List String) (a : String) :
    ∀ f ∈ detectedInSet ann background a, f ∈ background := by
  intro f hf
  have := List.of_mem_filter hf
  simpa using this

theorem enrichDir_min {ann : List (String × String)}
    {background regulated : List String} {minDetected : ℕ} {dir : String}
    {r : EnrichRec}
    (hr : r ∈ enrichDir ann background regulated minDetected dir) :
    minDetected ≤ (detectedInSet ann background r.term).length := by
  rcases List.mem_map.mp hr with ⟨a2, ha2, rfl⟩
  have := List.of_mem_filter ha2
  simpa using this

/-- C5: an annotation category with fewer than minDetected features present
in the background universe is excluded entirely from the output of
run_up_down_regulation_enrichment (no row is emitted for it), while a
category meeting the minimum but having zero overlap with the regulated set
still appears in the output with a non-significant result (p-value 1). -/
theorem enrichment_min_detected_policy
    (regData : List RegRec) (ann : List (String × String))
    (background : List String) (minDetected : ℕ) (lfcCutoff : ℚ)
    (a : String)
    (hndUp : ((upRegulated regData lfcCutoff).map
      fun r => r.identifier).Nodup)
    (hsubUp : ∀ f ∈ (upRegulated regData lfcCutoff).map
      fun r => r.identifier, f ∈ background) :
    ((detectedInSet ann background a).length < minDetected →
      ∀ r ∈ run_up_down_regulation_enrichment regData ann background
        minDetected lfcCutoff, r.term ≠ a) ∧
    (a ∈ annotationTerms ann →
      minDetected ≤ (detectedInSet ann background a).length →
      ∃ r ∈ run_up_down_regulation_enrichment regData ann background
        minDetected lfcCutoff,
        r.term = a ∧ (r.hitsRegulated = 0 → r.pvalue = 1)) := by
  constructor
  · intro hlt r hr he
    rcases List.mem_append.mp hr with hr2 | hr2 <;>
      exact absurd (he ▸ enrichDir_min hr2) (by omega)
  · intro ha hmin
    refine ⟨_, List.mem_append_left _ (List.mem_map.mpr
      ⟨a, List.mem_filter.mpr ⟨ha, by simpa using hmin⟩, rfl⟩), rfl, ?_⟩
    intro hk
    have hk2 : overlapCount (detectedInSet ann background a)
        ((upRegulated regData lfcCutoff).map fun r => r.identifier) = 0 :=
      hk
    show hypergeomP background.dedup.length
      (detectedInSet ann background a).length
      ((upRegulated regData lfcCutoff).map fun r => r.identifier).length
      (overlapCount (detectedInSet ann background a)
        ((upRegulated regData lfcCutoff).map fun r => r.identifier)) = 1
    rw [hk2]
    exact hypergeomP_zero _ _ _
      (nodup_length_le_dedup (detectedInSet_nodup ann background a)
        (detectedInSet_subset ann background a))
      (nodup_length_le_dedup hndUp hsubUp)

/-- Witness for C5: with regulation table making only f1 up-regulated,
annotation A detected in f2 and f3 (meets the minimum 2, zero overlap, so
it appears with p-value 1) and annotation B detected only in f1 (below the
minimum, so no row for B is emitted). -/
theorem enrichment_min_detected_policy_witness :
    (∀ r ∈ run_up_down_regulation_enrichment
        [⟨"f1", true, 2⟩, ⟨"f2", false, 0⟩]
        [("f2", "A"), ("f3", "A"), ("f1", "B")]
        ["f1", "f2", "f3"] 2 1, r.term ≠ "B") ∧
    (∃ r ∈ run_up_down_regulation_enrichment
        [⟨"f1", true, 2⟩, ⟨"f2", false, 0⟩]
        [("f2", "A"), ("f3", "A"), ("f1", "B")]
        ["f1", "f2", "f3"] 2 1,
      r.term = "A" ∧ (r.hitsRegulated = 0 → r.pvalue = 1)) :=
  ⟨(enrichment_min_detected_policy
      [⟨"f1", true, 2⟩, ⟨"f2", false, 0⟩]
      [("f2", "A"), ("f3", "A"), ("f1", "B")]
      ["f1", "f2", "f3"] 2 1 "B" (by decide) (by decide)).1 (by decide),
   (enrichment_min_detected_policy
      [⟨"f1", true, 2⟩, ⟨"f2", false, 0⟩]
      [("f2", "A"), ("f3", "A"), ("f1", "B")]
      ["f1", "f2", "f3"] 2 1 "A" (by decide) (by decide)).2
     (by decide) (by decide)⟩

/-! ## Single-Sample Ranking Enrichment (ssGSEA) -/

/-- The per-sample rank list of the ssGSEA method description quoted in the
src enrichment notebook (Barbie et al. 2009): the N measured features are
replaced by their ranks by absolute expression and listed from the highest
rank N down to 1. -/
def ssgseaRanks (N : ℕ) : List ℕ := (List.range N).map fun i => N - i

/-- Weight mass of the in-set ranks of a rank list. -/
def hitWeight (w : ℕ → ℚ) (inSet : ℕ → Bool) (ranks : List ℕ) : ℚ :=
  ((ranks.filter inSet).map w).sum

/-- Modelled from the spec: the ssGSEA enrichment score ES(G, S) of
run_ssgsea (spec 4.4, absent from src), following the Barbie et al.
formula quoted in the src enrichment notebook: the sum over list positions
of the absolute difference between the weighted ECDF of the in-set ranks
and the uniform ECDF of the out-of-set ranks, with the rank-weighting
exponent generalised to an arbitrary weight function on ranks. -/
def esScore (w : ℕ → ℚ) (inSet : ℕ → Bool) (N : ℕ) : ℚ :=
  ((List.range N).map fun i =>
    |hitWeight w inSet ((ssgseaRanks N).take (i + 1)) /
        hitWeight w inSet (ssgseaRanks N) -
      ((((ssgseaRanks N).take (i + 1)).filter
          fun r => !(inSet r)).length : ℚ) /
        ((N : ℚ) - (((ssgseaRanks N).filter inSet).length : ℚ))|).sum

/-- Counterexample to C8: on a single sample with two measured features,
weighting exponent 1 (weights equal to the ranks), and an annotation set
containing every measured feature, the enrichment score of the method
description is 5/3, not zero. -/
theorem esScore_full_set_not_zero :
    esScore (fun r => (r : ℚ)) (fun _ => true) 2 ≠ 0 := by
  have h2 : ssgseaRanks 2 = [2, 1] := by decide
  rw [esScore, h2]
  norm_num [hitWeight, List.range_succ]
  rw [abs_of_nonneg (by norm_num : (0 : ℚ) ≤ 2 / 3)]
  norm_num

/-- C8 amended: running ssGSEA on a single sample with an annotation set
containing every measured feature produces, for every positive
rank-weighting scheme (hence for every weighting exponent), an enrichment
score of at least 1 - the integral of the weighted hit ECDF, with no
out-of-set mass to subtract - and in particular a nonzero score, for any
sample with at least one measured feature. -/
theorem esScore_full_set_ge_one (w : ℕ → ℚ) (N : ℕ) (hN : 1 ≤ N)
    (hw : ∀ r ∈ ssgseaRanks N, 0 < w r) :
    1 ≤ esScore w (fun _ => true) N := by
  have hlen : (ssgseaRanks N).length = N := by
    simp [ssgseaRanks]
  have hW : 0 < hitWeight w (fun _ => true) (ssgseaRanks N) := by
    unfold hitWeight
    rw [List.filter_true]
    refine List.sum_pos _ ?_ ?_
    · intro x hx
      rcases List.mem_map.mp hx with ⟨r, hr, rfl⟩
      exact hw r hr
    · intro hnil
      rw [List.map_eq_nil_iff] at hnil
      have : (ssgseaRanks N).length = 0 := by rw [hnil]; rfl
      omega
  have hterm : |hitWeight w (fun _ => true)
        ((ssgseaRanks N).take ((N - 1) + 1)) /
      hitWeight w (fun _ => true) (ssgseaRanks N) -
      ((((ssgseaRanks N).take ((N - 1) + 1)).filter
          fun r => !((fun _ : ℕ => true) r)).length : ℚ) /
        ((N : ℚ) - (((ssgseaRanks N).filter
          fun _ => true).length : ℚ))| = 1 := by
    have hNm : (N - 1) + 1 = N := by omega
    rw [hNm]
    have htake : (ssgseaRanks N).take N = ssgseaRanks N :=
      List.take_of_length_le (le_of_eq hlen)
    rw [htake]
    have hmiss : ((ssgseaRanks N).filter
        fun r => !((fun _ : ℕ => true) r)) = [] := by
      simp
    rw [hmiss]
    simp [div_self hW.ne']
  have hmem : |hitWeight w (fun _ => true)
        ((ssgseaRanks N).take ((N - 1) + 1)) /
      hitWeight w (fun _ => true) (ssgseaRanks N) -
      ((((ssgseaRanks N).take ((N - 1) + 1)).filter
          fun r => !((fun _ : ℕ => true) r)).length : ℚ) /
        ((N : ℚ) - (((ssgseaRanks N).filter
          fun _ => true).length : ℚ))| ∈
      (List.range N).map fun i =>
        |hitWeight w (fun _ => true) ((ssgseaRanks N).take (i + 1)) /
            hitWeight w (fun _ => true) (ssgseaRanks N) -
          ((((ssgseaRanks N).take (i + 1)).filter
              fun r => !((fun _ : ℕ => true) r)).length : ℚ) /
            ((N : ℚ) - (((ssgseaRanks N).filter
              fun _ => true).length : ℚ))| :=
    List.mem_map.mpr ⟨N - 1, List.mem_range.mpr (by omega), rfl⟩
  calc (1 : ℚ) = _ := hterm.symm
    _ ≤ esScore w (fun _ => true) N :=
      List.single_le_sum (fun x hx => by
        rcases List.mem_map.mp hx with ⟨i, _, rfl⟩
        exact abs_nonneg _) _ hmem

/-- Witness for the amended C8 at two measured features with weighting
exponent 1. -/
theorem esScore_full_set_ge_one_witness :
    1 ≤ esScore (fun r => (r : ℚ)) (fun _ => true) 2 :=
  esScore_full_set_ge_one (fun r => (r : ℚ)) 2 (by decide)
    (by intro r hr; fin_cases hr <;> norm_num)

/-! ## PCA result shape -/

/-- Dimensions of one result table of run_pca. -/
structure PCATable where
  nrows : ℕ
  ncols : ℕ
  deriving Repr, DecidableEq

/-- Modelled from the spec: run_pca of the exploratory analysis module
(absent from src; its callers in the src notebooks unpack the first
component as resultDf, loadings and var_exp, next to a separate annotation
table, with the src comment that the result has three items although the
visualization docstring requests only two).  The numerical decomposition is
performed by an external library; the model captures the returned shape:
the first component is the list of the three result tables (sample
coordinates on the components, loadings, explained variance) and the second
component is the annotation table. -/
def run_pca (nSamples nFeatures components : ℕ) :
    List PCATable × PCATable :=
  ([⟨nSamples, components⟩, ⟨nFeatures, components⟩, ⟨components, 1⟩],
    ⟨nSamples, 1⟩)

/-- C9: for every input, run_pca returns a pair whose first component
consists of exactly three tables - sample coordinates, loadings and
explained variance - even though the downstream visualization docstring
documents only two. -/
theorem run_pca_result_has_three_tables
    (nSamples nFeatures components : ℕ) :
    ((run_pca nSamples nFeatures components).1).length = 3 := rfl

/-! ## ANCOVA grouping column dtype -/

/-- A metadata cell value as held by a dataframe column: string typed or
integer coded. -/
inductive ColValue
  | strVal : String → ColValue
  | intVal : ℤ → ColValue
  deriving Repr, DecidableEq

/-- Whether a cell value is of string type. -/
def ColValue.isStr : ColValue → Bool
  | .strVal _ => true
  | .intVal _ => false

/-- The cast of a cell value to string type (astype str). -/
def ColValue.toStrVal : ColValue → ColValue
  | .strVal s => .strVal s
  | .intVal n => .strVal (toString n)

/-- Whether every non-missing value of the grouping column is a string. -/
def ancovaGroupDtypeOk (groupVals : List (Option ColValue)) : Bool :=
  groupVals.all fun o => (o.map ColValue.isStr).getD true

/-- Modelled from the spec: run_ancova (spec 4.1, absent from src) as
called in the src ANCOVA notebook, which casts the grouping column with
astype str and notes that the target needs to be of type str before the
call (the group levels are joined by a regular expression inside).  The
model makes the string dtype of the grouping column a checked
precondition; with string levels, it enumerates the records of the ANOVA
core over the non-missing levels. -/
def run_ancova (features : List String)
    (groupVals : List (Option ColValue)) (_covariates : List String) :
    Except String (List AnovaRec) :=
  if ancovaGroupDtypeOk groupVals then
    let labels := groupVals.map fun o => o.bind fun v =>
      match v with
      | .strVal s => some s
      | .intVal _ => none
    if (groupLevels labels).length < 2 then
      .error ("fewer than 2 distinct group levels after missing-value removal")
    else
      .ok (anovaRecords features labels)
  else
    .error ("the grouping column must be cast to type str before calling run_ancova")

/-- C10: run_ancova requires the grouping column values to be of string
type as a precondition: a table whose group column holds non-string
(integer-coded) values is rejected, and casting the column to str always
satisfies the precondition, so the caller must cast before the call - a
requirement the spec configuration surface does not state. -/
theorem run_ancova_requires_str_group (features : List String)
    (groupVals : List (Option ColValue)) (covariates : List String)
    (hbad : ancovaGroupDtypeOk groupVals = false) :
    (∃ msg, run_ancova features groupVals covariates = .error msg) ∧
    ancovaGroupDtypeOk (groupVals.map fun o =>
      o.map ColValue.toStrVal) = true := by
  constructor
  · unfold run_ancova
    rw [hbad]
    exact ⟨_, rfl⟩
  · unfold ancovaGroupDtypeOk
    rw [List.all_eq_true]
    intro o ho
    rcases List.mem_map.mp ho with ⟨o2, _, rfl⟩
    cases o2 with
    | none => rfl
    | some v => cases v <;> rfl

/-- Witness for C10: an integer-coded grouping column 0 and 1 is rejected
by run_ancova, and its cast to str passes the dtype precondition. -/
theorem run_ancova_requires_str_group_witness :
    (∃ msg, run_ancova ["p1"]
      [some (.intVal 0), some (.intVal 1)] [] = .error msg) ∧
    ancovaGroupDtypeOk (([some (.intVal 0), some (.intVal 1)] :
      List (Option ColValue)).map fun o =>
        o.map ColValue.toStrVal) = true :=
  run_ancova_requires_str_group ["p1"]
    [some (.intVal 0), some (.intVal 1)] [] (by decide)

/-! ## The dtype of the rejected column returned by run_anova -/

/-- A dataframe cell as typed by pandas: boolean, float or object. -/
inductive PandasCell
  | boolCell : Bool → PandasCell
  | floatCell : ℚ → PandasCell
  | objectCell : String → PandasCell
  deriving Repr, DecidableEq

/-- Whether a cell is of boolean type. -/
def PandasCell.isBoolTyped : PandasCell → Bool
  | .boolCell _ => true
  | _ => false

/-- Modelled from the spec: an entry of the rejected column as actually
returned by run_anova (absent from src).  The src enrichment notebook must
recast the column with astype bool, with the comment that this needs to be
fixed in anova, so the returned column holds float-coded truth values
rather than booleans. -/
def anovaRejectedCellReturned (b : Bool) : PandasCell :=
  .floatCell (if b then 1 else 0)

/-- C3 documents a code bug: the claim says every entry of the rejected
column returned by run_anova is boolean; the entries actually returned are
float-coded truth values - witnessed by the astype bool cast the src
notebook has to apply - so no returned cell is of boolean type. -/
theorem anova_rejected_cell_not_bool (b : Bool) :
    (anovaRejectedCellReturned b).isBoolTyped = false := by
  cases b <;> rfl

end Acore
